import Mathlib

/-!
Verification of the `Channel` class from `source.py`: a prismatic
rectangular/trapezoidal open-channel model with geometry queries,
normal/critical depth residuals, slope classification, a downstream
decision table, and the direct-step distance integrator.

Python floats are modelled as exact real numbers.  The iterative root
finder (`scipy.optimize.fsolve`) is external to the repository and is
not modelled; instead the residual functions handed to it are embedded
directly.  The direct-step `while` loop is embedded as an iterated step
body; the iteration count (1000 for distinct depths, 0 for equal depths)
is exactly the number of times the Python loop guard `y < ystop` holds
in exact arithmetic, which is proved as a lemma below.
-/

open Real

/-- The channel description held by the Python `Channel` constructor:
bottom width `b`, side slopes `zleft`/`zright`, Manning roughness `n`,
longitudinal bed slope `slope`, discharge `q`, optional observed depths
`y1`/`y2`, and velocity-correction coefficient `alpha` (default 1). -/
structure Channel where
  b : ℝ
  zleft : ℝ
  zright : ℝ
  n : ℝ
  slope : ℝ
  q : ℝ
  y1 : Option ℝ := none
  y2 : Option ℝ := none
  alpha : ℝ := 1

/-- `top(y) = b + y*(zleft + zright)`, the top width. -/
noncomputable def Channel.top (c : Channel) (y : ℝ) : ℝ :=
  c.b + y * (c.zleft + c.zright)

/-- `area(y) = ((b + top(y))/2) * y`, the trapezoid area rule. -/
noncomputable def Channel.area (c : Channel) (y : ℝ) : ℝ :=
  ((c.b + c.top y) / 2) * y

/-- `wet_perim(y) = sqrt(y^2 + (y*zleft)^2) + b + sqrt(y^2 + (y*zright)^2)`. -/
noncomputable def Channel.wet_perim (c : Channel) (y : ℝ) : ℝ :=
  Real.sqrt (y ^ 2 + (y * c.zleft) ^ 2) + c.b + Real.sqrt (y ^ 2 + (y * c.zright) ^ 2)

/-- `hyd_rad(y) = area(y) / wet_perim(y)`. -/
noncomputable def Channel.hyd_rad (c : Channel) (y : ℝ) : ℝ :=
  c.area y / c.wet_perim y

/-- The residual of the Manning equation defined inside `norm_depth` and
handed to `fsolve`: `(1.49/n) * sqrt(slope) * area(y) * hyd_rad(y)**(2/3) - q`. -/
noncomputable def normResidual (c : Channel) (y : ℝ) : ℝ :=
  (1.49 / c.n) * Real.sqrt c.slope * c.area y * c.hyd_rad y ^ ((2 : ℝ) / 3) - c.q

/-- The residual of the critical-flow equation defined inside `crit_depth`
and handed to `fsolve`: `area(y)**3 / top(y) - q**2 / 32.2`. -/
noncomputable def critResidual (c : Channel) (y : ℝ) : ℝ :=
  c.area y ^ 3 / c.top y - c.q ^ 2 / 32.2

/-- `slope_cat`, parametrised by the two solved depths `yn = norm_depth()`
and `yc = crit_depth()`.  The Python function assigns `mild_steep` only in
the `yn < yc` and `yn > yc` branches; when `yn = yc` the variable is never
bound and the closing `format` call raises `UnboundLocalError`, modelled
here as `none`. -/
noncomputable def slope_cat (yn yc : ℝ) : Option String :=
  if yn < yc then some "Channel slope is steep"
  else if yn > yc then some "Channel slope is mild"
  else none

/-- The string returned by `downstream` when point 1 is downstream. -/
def point1Msg : String := "Point 1 is downstream of Point 2"

/-- The string returned by `downstream` when point 2 is downstream. -/
def point2Msg : String := "Point 2 is downstream of Point 1"

/-- `downstream`, parametrised by the two solved depths `yn = norm_depth()`
and `yc = crit_depth()`.  Mirrors the Python branch structure: the guard
returns `None` when a depth is missing or `y1 - y2 == 0`; the mild branch
(`yn > yc`) handles zones M1 (`y1 > yn`), M3 (`y1 < yc`) and M2 (else);
the steep branch handles S1 (`y1 > yc`), S3 (`y1 < yn`) and S2 (else). -/
noncomputable def downstreamWith (yn yc : ℝ) (c : Channel) : Option String :=
  match c.y1, c.y2 with
  | some ya, some yb =>
    if ya - yb = 0 then none
    else if yn > yc then
      if ya > yn then (if ya > yb then some point1Msg else some point2Msg)
      else if ya < yc then (if ya > yb then some point1Msg else some point2Msg)
      else (if ya > yb then some point2Msg else some point1Msg)
    else
      if ya > yc then (if ya > yb then some point1Msg else some point2Msg)
      else if ya < yn then (if ya > yb then some point1Msg else some point2Msg)
      else (if ya > yb then some point2Msg else some point1Msg)
  | _, _ => none

/-- Spec-side zone rule, from the claim's words: in which zones is the
deeper of the two depths downstream.  On a mild slope (`yn > yc`) the
deeper depth is downstream iff `y1 > yn` or `y1 < yc`; on a steep slope
(`yn ≤ yc`) iff `y1 > yc` or `y1 < yn`. -/
def deeperDownstream (yn yc ya : ℝ) : Prop :=
  (yn > yc ∧ (ya > yn ∨ ya < yc)) ∨ (¬ yn > yc ∧ (ya > yc ∨ ya < yn))

/-- Spec-side steep-slope rule, from the claim's words: the label produced
by applying the steep zones S1 (`y1 > yc`), S3 (`y1 < yn`), S2 (else)
together with the sign of `y1 - y2`. -/
noncomputable def steepRuleLabel (yn yc ya yb : ℝ) : String :=
  if ya > yc then (if ya > yb then point1Msg else point2Msg)
  else if ya < yn then (if ya > yb then point1Msg else point2Msg)
  else (if ya > yb then point2Msg else point1Msg)

/-- The loop state of `direct_step`: the marching depth `y`, the sample
index `i`, the previously appended specific energy and friction slope
(`e_list[i-1]`, `sf_list[i-1]`), the previous cumulative distance
(`cum_x_list[i-1]`), and the full cumulative-distance list `cum_x_list`. -/
@[ext] structure DSAcc where
  y : ℝ
  i : ℕ
  ePrev : ℝ
  sfPrev : ℝ
  cumPrev : ℝ
  cums : List ℝ

/-- One iteration of the `while y < ystop` body of `direct_step`,
translated line for line: area, hydraulic radius, velocity, velocity
head `alpha*v^2/64.4`, specific energy `E = y + vhead`, its increment
(0 at `i = 0`), friction slope `((q*n)/(1.49*A*R**(2/3)))**2`, averaged
friction slope, incremental distance `delta_e/(slope - sf_avg)` and
cumulative distance; finally `y += step` with `step = |y1-y2|/1000`. -/
noncomputable def dsBody (c : Channel) (ya yb : ℝ) (s : DSAcc) : DSAcc :=
  let a := c.area s.y
  let r := c.hyd_rad s.y
  let v := c.q / a
  let vhead := c.alpha * v ^ 2 / 64.4
  let e := s.y + vhead
  let de := if s.i = 0 then 0 else e - s.ePrev
  let sf := ((c.q * c.n) / (1.49 * a * r ^ ((2 : ℝ) / 3))) ^ 2
  let sfavg := if s.i = 0 then 0 else (sf + s.sfPrev) / 2
  let dx := if s.i = 0 then 0 else de / (c.slope - sfavg)
  let cum := if s.i = 0 then 0 else dx + s.cumPrev
  ⟨s.y + |ya - yb| / 1000, s.i + 1, e, sf, cum, s.cums ++ [cum]⟩

/-- `k` iterations of the `direct_step` loop body, started from
`y = ystart = min(y1,y2)`, `i = 0` and empty lists (the numeric seeds of
the unread `ePrev`/`sfPrev`/`cumPrev` fields are irrelevant: the body
ignores them when `i = 0`). -/
noncomputable def dsRun (c : Channel) (ya yb : ℝ) : ℕ → DSAcc
  | 0 => ⟨min ya yb, 0, 0, 0, 0, []⟩
  | k + 1 => dsBody c ya yb (dsRun c ya yb k)

/-- The number of times the Python guard `y < ystop` succeeds: with
`step = |y1-y2|/1000` and exact arithmetic the loop runs exactly 1000
times when the depths differ and zero times when they are equal
(`step = 0` and `ystart = ystop`).  Proved below in `dsRun_guard`. -/
noncomputable def numIter (ya yb : ℝ) : ℕ :=
  if ya = yb then 0 else 1000

/-- The exceptions `direct_step` can actually raise: `typeErr` models the
`TypeError` from `self.y1 - self.y2` when a depth is `None`, and
`indexErr` models the `IndexError` from `cum_x_list[-1]` when the loop
ran zero times and the list is empty. -/
inductive DSErr where
  | typeErr
  | indexErr

/-- `direct_step` with `tograph = None`: runs the marching loop and
reports `abs(cum_x_list[-1])`.  The Python function prints this distance
and returns `None`; the printed distance is modelled as the returned
value, and the two crash modes as `Except.error`. -/
noncomputable def directStep (c : Channel) : Except DSErr ℝ :=
  match c.y1, c.y2 with
  | some ya, some yb =>
    match ((dsRun c ya yb (numIter ya yb)).cums).getLast? with
    | some last => Except.ok |last|
    | none => Except.error DSErr.indexErr
  | _, _ => Except.error DSErr.typeErr

/-- Spec-side closed form: the depth at sample `i`,
`ystart + i*step` with `ystart = min(y1,y2)` and `step = |y1-y2|/1000`. -/
noncomputable def yAt (ya yb : ℝ) (i : ℕ) : ℝ :=
  min ya yb + i * (|ya - yb| / 1000)

/-- Spec-side closed form: the specific energy at sample `i`,
`E_i = y + alpha*(q/area(y))^2/64.4`. -/
noncomputable def EAt (c : Channel) (ya yb : ℝ) (i : ℕ) : ℝ :=
  yAt ya yb i + c.alpha * (c.q / c.area (yAt ya yb i)) ^ 2 / 64.4

/-- Spec-side closed form: the friction slope at sample `i`,
`Sf_i = ((q*n)/(1.49*area(y)*hyd_rad(y)^(2/3)))^2`. -/
noncomputable def SfAt (c : Channel) (ya yb : ℝ) (i : ℕ) : ℝ :=
  ((c.q * c.n) / (1.49 * c.area (yAt ya yb i) * c.hyd_rad (yAt ya yb i) ^ ((2 : ℝ) / 3))) ^ 2

/-- Spec-side closed form: the incremental distance at sample `i`,
`dx_0 = 0` and `dx_i = (E_i - E_(i-1)) / (slope - (Sf_i + Sf_(i-1))/2)`. -/
noncomputable def dxAt (c : Channel) (ya yb : ℝ) : ℕ → ℝ
  | 0 => 0
  | i + 1 =>
    (EAt c ya yb (i + 1) - EAt c ya yb i) /
      (c.slope - (SfAt c ya yb (i + 1) + SfAt c ya yb i) / 2)

/-- Spec-side closed form: the cumulative distance at sample `i`,
`X_0 = 0` and `X_i = X_(i-1) + dx_i`. -/
noncomputable def cumAt (c : Channel) (ya yb : ℝ) : ℕ → ℝ
  | 0 => 0
  | i + 1 => cumAt c ya yb i + dxAt c ya yb (i + 1)

/-- A `direct_step` invocation is non-singular when no sample's
denominator `slope - (Sf_i + Sf_(i-1))/2` vanishes. -/
def nonSingular (c : Channel) (ya yb : ℝ) : Prop :=
  ∀ i : ℕ, 1 ≤ i → i ≤ 999 →
    c.slope - (SfAt c ya yb i + SfAt c ya yb (i - 1)) / 2 ≠ 0

/-- Every incremental distance of the invocation is non-negative. -/
def dxNonneg (c : Channel) (ya yb : ℝ) : Prop :=
  ∀ i : ℕ, 1 ≤ i → i ≤ 999 → 0 ≤ dxAt c ya yb i

/-- The cumulative-distance sequence emitted by the invocation is
monotonically non-decreasing in the sample index. -/
def cumMono (c : Channel) (ya yb : ℝ) : Prop :=
  ∀ i : ℕ, i + 1 ≤ 999 → cumAt c ya yb i ≤ cumAt c ya yb (i + 1)

/-- A mild-slope channel marching through the M1-like band `[1, 2]`:
`b = 1`, rectangular, `n = 1.49`, `slope = 100`, `q = 1`, `y1 = 1`,
`y2 = 2`.  Here every `dx_i` is non-negative. -/
noncomputable def chM1 : Channel :=
  { b := 1, zleft := 0, zright := 0, n := 1.49, slope := 100, q := 1,
    y1 := some 1, y2 := some 2, alpha := 1 }

/-- A channel marching through the M2-like band `[10, 11]`: `b = 10`,
rectangular, `n = 149`, `slope = 1/1000000`, `q = 1`, `y1 = 10`,
`y2 = 11`.  Here every denominator is negative and every `dx_i` is
negative, so the cumulative distances decrease. -/
noncomputable def chM2 : Channel :=
  { b := 10, zleft := 0, zright := 0, n := 149, slope := 1 / 1000000, q := 1,
    y1 := some 10, y2 := some 11, alpha := 1 }

/-- A channel constructed with equal depths `y1 = y2 = 2`. -/
noncomputable def chEq : Channel :=
  { b := 1, zleft := 0, zright := 0, n := 1 / 100, slope := 1 / 100, q := 1,
    y1 := some 2, y2 := some 2, alpha := 1 }

/-- A channel with a negative bed slope. -/
noncomputable def chNeg : Channel :=
  { b := 12, zleft := 0, zright := 0, n := 3 / 200, slope := -1 / 100, q := 300 }

/-- A rectangular channel (`zleft = zright = 0`) used to refute strict
monotonicity of the top width. -/
noncomputable def chRect : Channel :=
  { b := 1, zleft := 0, zright := 0, n := 1 / 100, slope := 1 / 100, q := 1 }

/-- The parameters of the singular-step channel, before the bed slope is
fixed: `b = 10`, rectangular, `n = 149`, `q = 1`, `y1 = 10`, `y2 = 11`.
The friction slope does not depend on the bed slope, so the slope field
here is a placeholder. -/
noncomputable def chSingBase : Channel :=
  { b := 10, zleft := 0, zright := 0, n := 149, slope := 0, q := 1,
    y1 := some 10, y2 := some 11, alpha := 1 }

/-- The singular-step channel: same section as `chSingBase` but with the
bed slope chosen to equal the averaged friction slope of the first two
samples, so the denominator of `dx_1` is exactly zero. -/
noncomputable def chSing : Channel :=
  { chSingBase with
    slope := (SfAt chSingBase 10 11 1 + SfAt chSingBase 10 11 0) / 2 }

/-- The geometry facts that actually hold for every valid section: all
four quantities are non-negative on `y ≥ 0`; area, wetted perimeter and
hydraulic radius are strictly increasing on `y > 0`; the top width is
non-decreasing, and strictly increasing exactly when some side slope is
positive (for a rectangular section it is constant). -/
def geomSpec (c : Channel) : Prop :=
  (∀ y : ℝ, 0 ≤ y →
    0 ≤ c.top y ∧ 0 ≤ c.area y ∧ 0 ≤ c.wet_perim y ∧ 0 ≤ c.hyd_rad y) ∧
  (∀ y z : ℝ, 0 < y → y < z →
    c.area y < c.area z ∧ c.wet_perim y < c.wet_perim z ∧
      c.hyd_rad y < c.hyd_rad z ∧ c.top y ≤ c.top z) ∧
  (0 < c.zleft + c.zright → ∀ y z : ℝ, 0 < y → y < z → c.top y < c.top z)

/-- The Manning residual handed to `fsolve` is everywhere negative (the
normal-depth equation has no root at all). -/
def normNoRoot (c : Channel) : Prop :=
  ∀ y : ℝ, normResidual c y < 0

/-- What `direct_step` does on distinct depths: the loop guard holds for
exactly the first 1000 samples, and the reported distance is the
absolute value of the last cumulative distance, hence non-negative. -/
def directStepSpec (c : Channel) (ya yb : ℝ) : Prop :=
  (∀ k : ℕ, k < 1000 → yAt ya yb k < max ya yb) ∧
  ¬ yAt ya yb 1000 < max ya yb ∧
  directStep c = Except.ok |cumAt c ya yb 999| ∧
  0 ≤ |cumAt c ya yb 999|

/-- What the code does when both depths are present and equal:
`downstream` returns `None` whatever the solved depths are, and
`direct_step` raises `IndexError` (the loop body never runs, so
`cum_x_list` is empty when `cum_x_list[-1]` is evaluated). -/
def equalDepthOutcome (c : Channel) : Prop :=
  (∀ yn yc : ℝ, downstreamWith yn yc c = none) ∧
  directStep c = Except.error DSErr.indexErr

/-- For `y ≥ 0` the wetted perimeter simplifies to
`b + y*(sqrt(1+zleft^2) + sqrt(1+zright^2))`. -/
theorem wet_perim_eq (c : Channel) (y : ℝ) (hy : 0 ≤ y) :
    c.wet_perim y =
      c.b + y * (Real.sqrt (1 + c.zleft ^ 2) + Real.sqrt (1 + c.zright ^ 2)) := by
  have h1 : y ^ 2 + (y * c.zleft) ^ 2 = y ^ 2 * (1 + c.zleft ^ 2) := by ring
  have h2 : y ^ 2 + (y * c.zright) ^ 2 = y ^ 2 * (1 + c.zright ^ 2) := by ring
  rw [Channel.wet_perim, h1, h2, Real.sqrt_mul (sq_nonneg y), Real.sqrt_mul (sq_nonneg y),
    Real.sqrt_sq hy]
  ring

/-- `sqrt (1 + z^2)` is at least 1. -/
theorem one_le_sqrt_one_add_sq (z : ℝ) : 1 ≤ Real.sqrt (1 + z ^ 2) := by
  have h : (1 : ℝ) ≤ 1 + z ^ 2 := by nlinarith [sq_nonneg z]
  calc (1 : ℝ) = Real.sqrt 1 := Real.sqrt_one.symm
    _ ≤ Real.sqrt (1 + z ^ 2) := Real.sqrt_le_sqrt h

/-- The wetted perimeter of a section with positive bottom width is
positive at every depth. -/
theorem wet_perim_pos (c : Channel) (hb : 0 < c.b) (y : ℝ) : 0 < c.wet_perim y := by
  have s1 := Real.sqrt_nonneg (y ^ 2 + (y * c.zleft) ^ 2)
  have s2 := Real.sqrt_nonneg (y ^ 2 + (y * c.zright) ^ 2)
  simp only [Channel.wet_perim]
  linarith

/-- The area in the factored form used by the monotonicity proofs. -/
theorem area_eq (c : Channel) (y : ℝ) :
    c.area y = (c.b + (c.zleft + c.zright) / 2 * y) * y := by
  simp only [Channel.area, Channel.top]; ring

/-- The area is strictly increasing in the depth for a valid section. -/
theorem area_strictMono (c : Channel) (hb : 0 < c.b) (hzl : 0 ≤ c.zleft)
    (hzr : 0 ≤ c.zright) (y z : ℝ) (hy : 0 < y) (hyz : y < z) :
    c.area y < c.area z := by
  have hzz : 0 ≤ c.zleft + c.zright := add_nonneg hzl hzr
  have hy0 : (0 : ℝ) ≤ y := le_of_lt hy
  have hz0 : (0 : ℝ) ≤ z := by linarith
  rw [area_eq, area_eq]
  nlinarith [mul_pos hb (sub_pos.2 hyz),
    mul_nonneg (mul_nonneg hzz (add_nonneg hz0 hy0)) (sub_pos.2 hyz).le]

/-- The hydraulic radius is strictly increasing in the depth for a valid
section. -/
theorem hyd_rad_strictMono (c : Channel) (hb : 0 < c.b) (hzl : 0 ≤ c.zleft)
    (hzr : 0 ≤ c.zright) (y z : ℝ) (hy : 0 < y) (hyz : y < z) :
    c.hyd_rad y < c.hyd_rad z := by
  have hzz : 0 ≤ c.zleft + c.zright := add_nonneg hzl hzr
  have hy0 : (0 : ℝ) ≤ y := le_of_lt hy
  have hz0 : (0 : ℝ) ≤ z := by linarith
  have hPy := wet_perim_pos c hb y
  have hPz := wet_perim_pos c hb z
  simp only [Channel.hyd_rad]
  rw [div_lt_div_iff₀ hPy hPz, wet_perim_eq c y hy0, wet_perim_eq c z hz0]
  have key :
      c.area z * (c.b + y * (Real.sqrt (1 + c.zleft ^ 2) + Real.sqrt (1 + c.zright ^ 2))) -
        c.area y * (c.b + z * (Real.sqrt (1 + c.zleft ^ 2) + Real.sqrt (1 + c.zright ^ 2))) =
      c.b ^ 2 * (z - y) + (c.zleft + c.zright) * c.b / 2 * (z ^ 2 - y ^ 2) +
        (c.zleft + c.zright) *
          (Real.sqrt (1 + c.zleft ^ 2) + Real.sqrt (1 + c.zright ^ 2)) / 2 *
          (y * z) * (z - y) := by
    rw [area_eq, area_eq]; ring
  have hs1 := one_le_sqrt_one_add_sq c.zleft
  have hs2 := one_le_sqrt_one_add_sq c.zright
  nlinarith [mul_pos (mul_pos hb hb) (sub_pos.2 hyz), sq_nonneg (z - y),
    mul_nonneg (mul_nonneg hzz hb.le) (by nlinarith : (0 : ℝ) ≤ z ^ 2 - y ^ 2),
    mul_nonneg
      (mul_nonneg (mul_nonneg hzz (by linarith : (0 : ℝ) ≤
        Real.sqrt (1 + c.zleft ^ 2) + Real.sqrt (1 + c.zright ^ 2)))
        (mul_nonneg hy0 hz0)) (sub_pos.2 hyz).le]

/-- C8, amended.  For every valid section (`b > 0`, `zleft, zright ≥ 0`)
the four geometry functions are non-negative for `y ≥ 0`; `area`,
`wet_perim` and `hyd_rad` are strictly increasing for `0 < y < z`; `top`
is non-decreasing, and strictly increasing when `zleft + zright > 0`
(for a rectangular section it is constant, refuting the original claim
that all four are strictly increasing). -/
theorem geom_nonneg_strictMono (c : Channel) (hb : 0 < c.b)
    (hzl : 0 ≤ c.zleft) (hzr : 0 ≤ c.zright) : geomSpec c := by
  have hzz : 0 ≤ c.zleft + c.zright := add_nonneg hzl hzr
  have hs1 := one_le_sqrt_one_add_sq c.zleft
  have hs2 := one_le_sqrt_one_add_sq c.zright
  refine ⟨?_, ?_, ?_⟩
  · intro y hy
    have htop : 0 ≤ c.top y := by
      simp only [Channel.top]; nlinarith
    have harea : 0 ≤ c.area y := by
      rw [area_eq]
      nlinarith [mul_nonneg hb.le hy, mul_nonneg (mul_nonneg hzz hy) hy]
    have hperim : 0 ≤ c.wet_perim y := le_of_lt (wet_perim_pos c hb y)
    exact ⟨htop, harea, hperim, div_nonneg harea hperim⟩
  · intro y z hy hyz
    have hy0 : (0 : ℝ) ≤ y := le_of_lt hy
    have hz0 : (0 : ℝ) ≤ z := by linarith
    have hperim : c.wet_perim y < c.wet_perim z := by
      rw [wet_perim_eq c y hy0, wet_perim_eq c z hz0]; nlinarith
    have htop : c.top y ≤ c.top z := by
      simp only [Channel.top]; nlinarith
    exact ⟨area_strictMono c hb hzl hzr y z hy hyz, hperim,
      hyd_rad_strictMono c hb hzl hzr y z hy hyz, htop⟩
  · intro hpos y z hy hyz
    simp only [Channel.top]; nlinarith

/-- C8 counterexample: for the rectangular section `chRect` (a valid
section with both side slopes zero) the top width is constant, so it is
not strictly increasing between the depths 1 and 2. -/
theorem top_constant_on_rect :
    0 < chRect.b ∧ 0 ≤ chRect.zleft ∧ 0 ≤ chRect.zright ∧ (0 : ℝ) < 1 ∧ (1 : ℝ) < 2 ∧
      ¬ chRect.top 1 < chRect.top 2 := by
  norm_num [chRect, Channel.top]

/-- C8 witness: the amended geometry facts hold for the concrete valid
section `chM1`. -/
theorem geom_nonneg_strictMono_witness :
    0 < chM1.b ∧ 0 ≤ chM1.zleft ∧ 0 ≤ chM1.zright ∧ geomSpec chM1 :=
  ⟨by norm_num [chM1], by norm_num [chM1], by norm_num [chM1],
    geom_nonneg_strictMono chM1 (by norm_num [chM1]) (by norm_num [chM1])
      (by norm_num [chM1])⟩

/-- The two downstream labels are distinct strings. -/
theorem point1Msg_ne_point2Msg : point1Msg ≠ point2Msg := by decide

/-- C1.  For every channel with solved depths `yn`, `yc` and a pair of
distinct positive depths, `downstream` returns exactly the label dictated
by the nine-zone decision table: the result names point 1 iff the zone
rule says the deeper point is downstream and `y1 > y2`, or says deeper is
upstream and `y1 < y2`; and symmetrically for point 2. -/
theorem downstream_zone_table (c : Channel) (yn yc ya yb : ℝ)
    (h1 : c.y1 = some ya) (h2 : c.y2 = some yb)
    (hpa : 0 < ya) (hpb : 0 < yb) (hne : ya ≠ yb) :
    (downstreamWith yn yc c = some point1Msg ↔
      (deeperDownstream yn yc ya ∧ yb < ya) ∨ (¬ deeperDownstream yn yc ya ∧ ya < yb)) ∧
    (downstreamWith yn yc c = some point2Msg ↔
      (deeperDownstream yn yc ya ∧ ya < yb) ∨ (¬ deeperDownstream yn yc ya ∧ yb < ya)) := by
  have hne12 : point1Msg ≠ point2Msg := point1Msg_ne_point2Msg
  have hne21 : point2Msg ≠ point1Msg := Ne.symm hne12
  have hsub : ya - yb ≠ 0 := sub_ne_zero.2 hne
  rcases hne.lt_or_lt with hlt | hlt
  · have hnlt : ¬ yb < ya := by linarith
    simp only [downstreamWith, h1, h2, if_neg hsub]
    split_ifs <;>
      simp only [Option.some.injEq, hne12, hne21, deeperDownstream,
        eq_self_iff_true, true_iff, false_iff, iff_true, iff_false] <;>
      tauto
  · have hnlt : ¬ ya < yb := by linarith
    simp only [downstreamWith, h1, h2, if_neg hsub]
    split_ifs <;>
      simp only [Option.some.injEq, hne12, hne21, deeperDownstream,
        eq_self_iff_true, true_iff, false_iff, iff_true, iff_false] <;>
      tauto

/-- C1 witness: the decision table theorem instantiated on the concrete
channel `chM1` with solved depths `yn = 3`, `yc = 1/2`. -/
theorem downstream_zone_table_witness :
    chM1.y1 = some 1 ∧ chM1.y2 = some 2 ∧ (0 : ℝ) < 1 ∧ (0 : ℝ) < 2 ∧ (1 : ℝ) ≠ 2 ∧
    ((downstreamWith 3 (1 / 2) chM1 = some point1Msg ↔
      (deeperDownstream 3 (1 / 2) 1 ∧ (2 : ℝ) < 1) ∨
        (¬ deeperDownstream 3 (1 / 2) 1 ∧ (1 : ℝ) < 2)) ∧
    (downstreamWith 3 (1 / 2) chM1 = some point2Msg ↔
      (deeperDownstream 3 (1 / 2) 1 ∧ (1 : ℝ) < 2) ∨
        (¬ deeperDownstream 3 (1 / 2) 1 ∧ (2 : ℝ) < 1))) :=
  ⟨rfl, rfl, by norm_num, by norm_num, by norm_num,
    downstream_zone_table chM1 3 (1 / 2) 1 2 rfl rfl (by norm_num) (by norm_num)
      (by norm_num)⟩

/-- C4: evaluating `slope_cat` at equal solved depths (the critical-slope
case `yn = yc = 1`).  The Python code never assigns `mild_steep` in this
case and crashes with `UnboundLocalError`, modelled as `none`: the caller
observes no third classification outcome, contradicting the claim. -/
theorem slope_cat_crash_at_critical : slope_cat 1 1 = none := by
  simp [slope_cat]

/-- C10.  When the solved normal and critical depths coincide, the mild
branch test `yn > yc` fails, so `downstream` falls through to the steep
branch and still returns a definite label — the one given by the
steep-slope zone rules — even though `slope_cat` itself crashes (no
label, modelled as `none`). -/
theorem downstream_defined_at_critical_slope (c : Channel) (yn ya yb : ℝ)
    (h1 : c.y1 = some ya) (h2 : c.y2 = some yb)
    (hpa : 0 < ya) (hpb : 0 < yb) (hne : ya ≠ yb) :
    slope_cat yn yn = none ∧
      downstreamWith yn yn c = some (steepRuleLabel yn yn ya yb) := by
  have hsub : ya - yb ≠ 0 := sub_ne_zero.2 hne
  constructor
  · simp [slope_cat]
  · simp only [downstreamWith, h1, h2, if_neg hsub, steepRuleLabel]
    have hnm : ¬ yn > yn := lt_irrefl yn
    rw [if_neg hnm]
    split_ifs <;> rfl

/-- C10 witness: the critical-slope downstream theorem instantiated on
`chM1` with `yn = yc = 3/2`. -/
theorem downstream_defined_at_critical_slope_witness :
    chM1.y1 = some 1 ∧ chM1.y2 = some 2 ∧ (0 : ℝ) < 1 ∧ (0 : ℝ) < 2 ∧ (1 : ℝ) ≠ 2 ∧
    (slope_cat (3 / 2) (3 / 2) = none ∧
      downstreamWith (3 / 2) (3 / 2) chM1 = some (steepRuleLabel (3 / 2) (3 / 2) 1 2)) :=
  ⟨rfl, rfl, by norm_num, by norm_num, by norm_num,
    downstream_defined_at_critical_slope chM1 (3 / 2) 1 2 rfl rfl (by norm_num)
      (by norm_num) (by norm_num)⟩

/-- C7.  For a non-positive bed slope the code does not raise any
`InvalidSlopeError` (no such class exists): it builds the Manning
residual with `np.sqrt(slope)` — 0 for `slope = 0`, NaN for negative
slope, modelled by `Real.sqrt` returning 0 — and hands it to `fsolve`.
That residual is then constantly `-q < 0`: the normal-depth equation has
no root at all, so whatever number `fsolve` returns is an artifact. -/
theorem norm_residual_no_root (c : Channel) (hs : c.slope ≤ 0) (hq : 0 < c.q) :
    normNoRoot c := by
  intro y
  have h0 : Real.sqrt c.slope = 0 := Real.sqrt_eq_zero'.2 hs
  simp only [normResidual, h0, mul_zero, zero_mul]
  linarith

/-- C7 witness: the no-root theorem instantiated on the concrete channel
`chNeg`, whose bed slope is negative. -/
theorem norm_residual_no_root_witness :
    chNeg.slope ≤ 0 ∧ 0 < chNeg.q ∧ normNoRoot chNeg :=
  ⟨by norm_num [chNeg], by norm_num [chNeg],
    norm_residual_no_root chNeg (by norm_num [chNeg]) (by norm_num [chNeg])⟩

/-- Rectangular section: `area(y) = b*y`. -/
theorem area_rect (c : Channel) (hzl : c.zleft = 0) (hzr : c.zright = 0) (y : ℝ) :
    c.area y = c.b * y := by
  rw [area_eq, hzl, hzr]; ring

/-- Rectangular section: `hyd_rad(y) = b*y/(b + 2*y)` for `y ≥ 0`. -/
theorem hyd_rad_rect (c : Channel) (hzl : c.zleft = 0) (hzr : c.zright = 0)
    (y : ℝ) (hy : 0 ≤ y) : c.hyd_rad y = c.b * y / (c.b + 2 * y) := by
  rw [Channel.hyd_rad, area_rect c hzl hzr, wet_perim_eq c y hy, hzl, hzr]
  norm_num
  ring_nf

/-- The sample depths advance by one step: `yAt (i+1) = yAt i + step`. -/
theorem yAt_succ (ya yb : ℝ) (i : ℕ) :
    yAt ya yb (i + 1) = yAt ya yb i + |ya - yb| / 1000 := by
  simp only [yAt]
  push_cast
  ring

/-- For `ya < yb` every sample depth up to index 999 stays in `[ya, yb]`. -/
theorem yAt_bounds (ya yb : ℝ) (hab : ya < yb) (i : ℕ) (hi : i ≤ 999) :
    ya ≤ yAt ya yb i ∧ yAt ya yb i ≤ yb := by
  have hd : |ya - yb| = yb - ya := by
    rw [abs_of_neg (by linarith : ya - yb < 0)]; ring
  have hmin : min ya yb = ya := min_eq_left hab.le
  have hiR : (i : ℝ) ≤ 999 := by exact_mod_cast hi
  have hiR0 : (0 : ℝ) ≤ (i : ℝ) := Nat.cast_nonneg i
  constructor <;> simp only [yAt, hd, hmin] <;> nlinarith

/-- After `k+1` iterations the `direct_step` loop state carries exactly
the closed forms of the claim: the next sample depth, the sample count,
the last specific energy and friction slope, the last cumulative
distance, and the list of all cumulative distances emitted so far. -/
theorem dsRun_closed (c : Channel) (ya yb : ℝ) (k : ℕ) :
    dsRun c ya yb (k + 1) =
      ⟨yAt ya yb (k + 1), k + 1, EAt c ya yb k, SfAt c ya yb k, cumAt c ya yb k,
        (List.range (k + 1)).map (cumAt c ya yb)⟩ := by
  induction k with
  | zero =>
    show dsBody c ya yb (dsRun c ya yb 0) = _
    simp only [dsRun, dsBody]
    apply DSAcc.ext <;>
      simp [yAt, EAt, SfAt, cumAt, List.range_succ]
  | succ k ih =>
    show dsBody c ya yb (dsRun c ya yb (k + 1)) = _
    rw [ih]
    simp only [dsBody, Nat.succ_ne_zero, if_false, ite_false]
    apply DSAcc.ext
    · rw [yAt_succ ya yb (k + 1)]
    · rfl
    · simp [EAt]
    · simp [SfAt]
    · simp only [cumAt, dxAt, EAt, SfAt]
      ring
    · simp only [List.range_succ, List.map_append, List.map_cons, List.map_nil]
      congr 1
      simp only [List.cons.injEq, and_true]
      simp only [cumAt, dxAt, EAt, SfAt]
      ring

/-- The while-loop guard count: for distinct depths the guard
`y < ystop` holds at each of the first 1000 samples and fails right
after the 1000th update, so the Python loop runs exactly 1000 times. -/
theorem dsRun_guard (ya yb : ℝ) (hne : ya ≠ yb) :
    (∀ k : ℕ, k < 1000 → yAt ya yb k < max ya yb) ∧ ¬ yAt ya yb 1000 < max ya yb := by
  have hd : 0 < |ya - yb| := abs_pos.2 (sub_ne_zero.2 hne)
  have hmax : max ya yb - min ya yb = |ya - yb| := by
    rw [max_sub_min_eq_abs, abs_sub_comm]
  constructor
  · intro k hk
    have hkR : (k : ℝ) < 1000 := by exact_mod_cast hk
    have hmul : (k : ℝ) * (|ya - yb| / 1000) < 1000 * (|ya - yb| / 1000) := by
      apply mul_lt_mul_of_pos_right hkR
      positivity
    simp only [yAt]
    linarith
  · simp only [yAt]
    push_cast
    linarith

set_option maxRecDepth 4000 in
/-- For distinct supplied depths `direct_step` runs its 1000 samples and
reports the absolute value of the last cumulative distance. -/
theorem directStep_eq_of_ne (c : Channel) (ya yb : ℝ) (h1 : c.y1 = some ya)
    (h2 : c.y2 = some yb) (hne : ya ≠ yb) :
    directStep c = Except.ok |cumAt c ya yb 999| := by
  have h1000 : numIter ya yb = 1000 := if_neg hne
  simp only [directStep, h1, h2, h1000]
  rw [show (1000 : ℕ) = 999 + 1 from rfl, dsRun_closed]
  simp only [List.range_succ, List.map_append, List.map_cons, List.map_nil,
    List.getLast?_concat]

/-- For equal supplied depths the loop body never runs (`step = 0` and
`ystart = ystop`), so `cum_x_list` is empty and `cum_x_list[-1]` raises
`IndexError`. -/
theorem directStep_indexErr_of_eq (c : Channel) (y : ℝ) (h1 : c.y1 = some y)
    (h2 : c.y2 = some y) : directStep c = Except.error DSErr.indexErr := by
  simp only [directStep, h1, h2, numIter, if_pos rfl, dsRun]
  rfl

/-- C3.  For distinct positive depths, `direct_step` marches from
`min(y1,y2)` toward `max(y1,y2)` in steps of `|y1-y2|/1000` — the guard
holds for exactly the samples `i = 0..999` and fails once `y` reaches the
stop depth — computes the claim's closed forms `E_i`, `Sf_i`, `dx_i`,
`X_i`, and reports `|X_last|`, which is never negative. -/
theorem direct_step_runs_and_reports_abs (c : Channel) (ya yb : ℝ)
    (h1 : c.y1 = some ya) (h2 : c.y2 = some yb)
    (hpa : 0 < ya) (hpb : 0 < yb) (hne : ya ≠ yb) :
    directStepSpec c ya yb := by
  obtain ⟨hg1, hg2⟩ := dsRun_guard ya yb hne
  exact ⟨hg1, hg2, directStep_eq_of_ne c ya yb h1 h2 hne, abs_nonneg _⟩

/-- C3 witness: the direct-step theorem instantiated on `chM1`. -/
theorem direct_step_runs_and_reports_abs_witness :
    chM1.y1 = some 1 ∧ chM1.y2 = some 2 ∧ (0 : ℝ) < 1 ∧ (0 : ℝ) < 2 ∧ (1 : ℝ) ≠ 2 ∧
      directStepSpec chM1 1 2 :=
  ⟨rfl, rfl, by norm_num, by norm_num, by norm_num,
    direct_step_runs_and_reports_abs chM1 1 2 rfl rfl (by norm_num) (by norm_num)
      (by norm_num)⟩

/-- C5, amended.  For equal supplied depths, `downstream` returns `None`
(no point label) for every pair of solved depths, and `direct_step`
fails — but with the accidental `IndexError` from `cum_x_list[-1]` on an
empty list, not with any named `MissingDepthsError`/`AmbiguousDirectionError`
(no such classes exist in the code); it never returns a distance of 0. -/
theorem equal_depths_fail (c : Channel) (y : ℝ) (h1 : c.y1 = some y)
    (h2 : c.y2 = some y) : equalDepthOutcome c := by
  constructor
  · intro yn yc
    simp [downstreamWith, h1, h2]
  · exact directStep_indexErr_of_eq c y h1 h2

/-- C5 counterexample: on the concrete equal-depth channel `chEq` the
code produces `None` from `downstream` and an `IndexError` from
`direct_step` — the only failure modes it has — refuting the claim that
an explicit `MissingDepthsError`/`AmbiguousDirectionError` is raised. -/
theorem equal_depths_not_named_errors :
    chEq.y1 = some 2 ∧ chEq.y2 = some 2 ∧ downstreamWith 3 2 chEq = none ∧
      directStep chEq = Except.error DSErr.indexErr := by
  refine ⟨rfl, rfl, ?_, directStep_indexErr_of_eq chEq 2 rfl rfl⟩
  simp [downstreamWith, chEq]

/-- C5 witness: the equal-depth outcome instantiated on `chEq`. -/
theorem equal_depths_fail_witness :
    chEq.y1 = some 2 ∧ chEq.y2 = some 2 ∧ equalDepthOutcome chEq :=
  ⟨rfl, rfl, equal_depths_fail chEq 2 rfl rfl⟩

/-- C6.  On the channel `chSing` the denominator `slope - sf_avg` of
`dx_1` is exactly zero, yet `direct_step` raises no `SingularStepError`
(no such class exists in the code): the division is evaluated
unconditionally and the run completes, reporting a distance. -/
theorem singular_step_no_error :
    chSing.slope - (SfAt chSing 10 11 1 + SfAt chSing 10 11 0) / 2 = 0 ∧
      directStep chSing = Except.ok |cumAt chSing 10 11 999| := by
  constructor
  · have h : chSing.slope = (SfAt chSing 10 11 1 + SfAt chSing 10 11 0) / 2 := rfl
    rw [h, sub_self]
  · exact directStep_eq_of_ne chSing 10 11 rfl rfl (by norm_num)

/-- For a base in `(0, 1]`, raising to the exponent `2/3` can only
increase it. -/
theorem rpow_two_thirds_ge (r : ℝ) (h0 : 0 < r) (h1 : r ≤ 1) : r ≤ r ^ ((2 : ℝ) / 3) := by
  have h := Real.rpow_le_rpow_of_exponent_ge h0 h1 (by norm_num : (2 : ℝ) / 3 ≤ 1)
  rwa [Real.rpow_one] at h

/-- For a base `≥ 1`, raising to the exponent `2/3` can only decrease it. -/
theorem rpow_two_thirds_le (r : ℝ) (h1 : 1 ≤ r) : r ^ ((2 : ℝ) / 3) ≤ r := by
  have h := Real.rpow_le_rpow_of_exponent_le h1 (by norm_num : (2 : ℝ) / 3 ≤ 1)
  rwa [Real.rpow_one] at h

/-- On `chM1` every sample's friction slope is at most 9 (far below the
bed slope 100). -/
theorem SfAt_chM1_le (i : ℕ) (hi : i ≤ 999) : SfAt chM1 1 2 i ≤ 9 := by
  obtain ⟨h1, h2⟩ := yAt_bounds 1 2 (by norm_num) i hi
  set y := yAt 1 2 i with hydef
  have hy0 : (0 : ℝ) < y := by linarith
  have harea : chM1.area y = y := by
    rw [area_rect chM1 rfl rfl]; norm_num [chM1]
  have hrad : chM1.hyd_rad y = y / (1 + 2 * y) := by
    rw [hyd_rad_rect chM1 rfl rfl y hy0.le]; norm_num [chM1]
  have hq : chM1.q = 1 := rfl
  have hn : chM1.n = 1.49 := rfl
  simp only [SfAt, ← hydef, harea, hrad, hq, hn]
  set r := y / (1 + 2 * y) with hrdef
  have hr0 : 0 < r := div_pos hy0 (by linarith)
  have hr1 : r ≤ 1 := by
    rw [hrdef, div_le_one (by linarith)]; linarith
  have hr3 : 1 / 3 ≤ r := by
    rw [hrdef, le_div_iff₀ (by linarith)]; linarith
  have hrp : 1 / 3 ≤ r ^ ((2 : ℝ) / 3) := le_trans hr3 (rpow_two_thirds_ge r hr0 hr1)
  have hrp0 : 0 < r ^ ((2 : ℝ) / 3) := Real.rpow_pos_of_pos hr0 _
  have hden : 0 < 1.49 * y * r ^ ((2 : ℝ) / 3) := by
    have h149 : (0 : ℝ) < 1.49 := by norm_num
    exact mul_pos (mul_pos h149 hy0) hrp0
  have ht : 1 / 3 ≤ y * r ^ ((2 : ℝ) / 3) := by
    nlinarith [mul_nonneg (by linarith : (0 : ℝ) ≤ y - 1) hrp0.le]
  have hx0 : 0 ≤ 1 * 1.49 / (1.49 * y * r ^ ((2 : ℝ) / 3)) :=
    div_nonneg (by norm_num) hden.le
  have hx3 : 1 * 1.49 / (1.49 * y * r ^ ((2 : ℝ) / 3)) ≤ 3 := by
    rw [div_le_iff₀ hden]
    nlinarith [ht]
  calc (1 * 1.49 / (1.49 * y * r ^ ((2 : ℝ) / 3))) ^ 2
      ≤ 3 ^ 2 := by nlinarith [hx0, hx3]
    _ ≤ 9 := by norm_num

/-- On `chM1` the specific energy increases from one sample to the next:
in the band `y ∈ [1, 2]` the depth term dominates the shrinking
velocity-head term. -/
theorem EAt_chM1_mono (i : ℕ) (hi : i + 1 ≤ 999) :
    EAt chM1 1 2 i ≤ EAt chM1 1 2 (i + 1) := by
  obtain ⟨hu1, hu2⟩ := yAt_bounds 1 2 (by norm_num) i (by omega)
  obtain ⟨hv1, hv2⟩ := yAt_bounds 1 2 (by norm_num) (i + 1) hi
  have hstep : yAt 1 2 (i + 1) = yAt 1 2 i + 1 / 1000 := by
    rw [yAt_succ]; norm_num
  set u := yAt 1 2 i with hudef
  set v := yAt 1 2 (i + 1) with hvdef
  have huv : u ≤ v := by rw [hstep]; linarith
  have hu0 : (0 : ℝ) < u := by linarith
  have hv0 : (0 : ℝ) < v := by linarith
  have hau : chM1.area u = u := by
    rw [area_rect chM1 rfl rfl]; norm_num [chM1]
  have hav : chM1.area v = v := by
    rw [area_rect chM1 rfl rfl]; norm_num [chM1]
  have halpha : chM1.alpha = 1 := rfl
  have hq : chM1.q = 1 := rfl
  simp only [EAt, ← hudef, ← hvdef, hau, hav, halpha, hq]
  have hu0' : u ≠ 0 := hu0.ne'
  have hv0' : v ≠ 0 := hv0.ne'
  have heq : (v + 1 * (1 / v) ^ 2 / 64.4) - (u + 1 * (1 / u) ^ 2 / 64.4) =
      (v - u) * (1 - (v + u) / (64.4 * u ^ 2 * v ^ 2)) := by
    field_simp
    ring
  have hu2q : 1 ≤ u ^ 2 := by nlinarith
  have hv2q : 1 ≤ v ^ 2 := by nlinarith
  have huv2 : 1 ≤ u ^ 2 * v ^ 2 := by
    nlinarith [mul_nonneg (by linarith : (0 : ℝ) ≤ u ^ 2 - 1)
      (by linarith : (0 : ℝ) ≤ v ^ 2 - 1)]
  have hfrac : (v + u) / (64.4 * u ^ 2 * v ^ 2) ≤ 1 := by
    rw [div_le_one (by positivity)]
    nlinarith [huv2]
  nlinarith [mul_nonneg (by linarith : (0 : ℝ) ≤ v - u)
    (by linarith : (0 : ℝ) ≤ 1 - (v + u) / (64.4 * u ^ 2 * v ^ 2)), heq]

/-- On `chM1` every incremental distance is non-negative: the energy
increments are non-negative and every denominator is at least 91. -/
theorem dxNonneg_chM1 : dxNonneg chM1 1 2 := by
  intro i h1i h999
  obtain ⟨j, rfl⟩ : ∃ j, i = j + 1 := ⟨i - 1, by omega⟩
  simp only [dxAt]
  apply div_nonneg
  · have h := EAt_chM1_mono j (by omega)
    linarith
  · have hs1 := SfAt_chM1_le (j + 1) (by omega)
    have hs0 := SfAt_chM1_le j (by omega)
    have hsl : chM1.slope = 100 := rfl
    rw [hsl]
    linarith

/-- On `chM2` every sample's friction slope is at least `1/400` (far
above the bed slope `1/1000000`). -/
theorem SfAt_chM2_ge (i : ℕ) (hi : i ≤ 999) : 1 / 400 ≤ SfAt chM2 10 11 i := by
  obtain ⟨h1, h2⟩ := yAt_bounds 10 11 (by norm_num) i hi
  set y := yAt 10 11 i with hydef
  have hy0 : (0 : ℝ) < y := by linarith
  have harea : chM2.area y = 10 * y := by
    rw [area_rect chM2 rfl rfl]; norm_num [chM2]
  have hrad : chM2.hyd_rad y = 10 * y / (10 + 2 * y) := by
    rw [hyd_rad_rect chM2 rfl rfl y hy0.le]; norm_num [chM2]
  have hq : chM2.q = 1 := rfl
  have hn : chM2.n = 149 := rfl
  simp only [SfAt, ← hydef, harea, hrad, hq, hn]
  set r := 10 * y / (10 + 2 * y) with hrdef
  have hr0 : 0 < r := div_pos (by linarith) (by linarith)
  have hr1 : 1 ≤ r := by
    rw [hrdef, le_div_iff₀ (by linarith)]; linarith
  have hr4 : r ≤ 4 := by
    rw [hrdef, div_le_iff₀ (by linarith)]; linarith
  have hrp4 : r ^ ((2 : ℝ) / 3) ≤ 4 := le_trans (rpow_two_thirds_le r hr1) hr4
  have hrp0 : 0 < r ^ ((2 : ℝ) / 3) := Real.rpow_pos_of_pos hr0 _
  have hden : 0 < 1.49 * (10 * y) * r ^ ((2 : ℝ) / 3) := by
    have h149 : (0 : ℝ) < 1.49 := by norm_num
    exact mul_pos (mul_pos h149 (by linarith)) hrp0
  have hdle : 1.49 * (10 * y) * r ^ ((2 : ℝ) / 3) ≤ 2980 := by
    nlinarith [mul_le_mul (by linarith : 10 * y ≤ 110) hrp4 hrp0.le
      (by norm_num : (0 : ℝ) ≤ 110)]
  have hX : 1 / 20 ≤ 1 * 149 / (1.49 * (10 * y) * r ^ ((2 : ℝ) / 3)) := by
    rw [le_div_iff₀ hden]
    linarith
  have hX0 : 0 ≤ 1 * 149 / (1.49 * (10 * y) * r ^ ((2 : ℝ) / 3)) :=
    div_nonneg (by norm_num) hden.le
  nlinarith [hX, hX0]

/-- On `chM2` no denominator `slope - sf_avg` vanishes: the averaged
friction slope is at least `1/400` while the bed slope is `1/1000000`. -/
theorem nonSingular_chM2 : nonSingular chM2 10 11 := by
  intro i h1i h999
  have hs1 := SfAt_chM2_ge i (by omega)
  have hs0 := SfAt_chM2_ge (i - 1) (by omega)
  have hsl : chM2.slope = 1 / 1000000 := rfl
  have hlt : chM2.slope - (SfAt chM2 10 11 i + SfAt chM2 10 11 (i - 1)) / 2 < 0 := by
    rw [hsl]; linarith
  exact ne_of_lt hlt

/-- On `chM2` the specific energy still increases from sample 0 to
sample 1: the depth gain `1/1000` dominates the velocity-head loss. -/
theorem deltaE_chM2_pos : 0 < EAt chM2 10 11 1 - EAt chM2 10 11 0 := by
  have h0 : yAt 10 11 0 = 10 := by norm_num [yAt]
  have h1 : yAt 10 11 1 = 10 + 1 / 1000 := by norm_num [yAt]
  simp only [EAt, h0, h1]
  rw [area_rect chM2 rfl rfl, area_rect chM2 rfl rfl]
  norm_num [chM2]

/-- On `chM2` the first incremental distance is negative (positive
energy increment over a negative denominator), so the cumulative
distance strictly decreases from sample 0 to sample 1. -/
theorem cum_decreasing_chM2 : cumAt chM2 10 11 1 < cumAt chM2 10 11 0 := by
  have hE := deltaE_chM2_pos
  have hs1 := SfAt_chM2_ge 1 (by norm_num)
  have hs0 := SfAt_chM2_ge 0 (by norm_num)
  have hden : chM2.slope - (SfAt chM2 10 11 1 + SfAt chM2 10 11 0) / 2 < 0 := by
    have hsl : chM2.slope = 1 / 1000000 := rfl
    rw [hsl]; linarith
  have hdx1 : dxAt chM2 10 11 1 =
      (EAt chM2 10 11 1 - EAt chM2 10 11 0) /
        (chM2.slope - (SfAt chM2 10 11 1 + SfAt chM2 10 11 0) / 2) := rfl
  have hdx : dxAt chM2 10 11 1 < 0 := by
    rw [hdx1]
    exact div_neg_of_pos_of_neg hE hden
  have hc1 : cumAt chM2 10 11 1 = cumAt chM2 10 11 0 + dxAt chM2 10 11 1 := rfl
  have hc0 : cumAt chM2 10 11 0 = 0 := rfl
  rw [hc1, hc0]
  linarith

/-- C9 counterexample: the invocation of `direct_step` on `chM2` is
non-singular, yet its cumulative-distance sequence strictly decreases
already at the first step, refuting monotone non-decrease. -/
theorem cum_not_monotone_chM2 :
    nonSingular chM2 10 11 ∧ cumAt chM2 10 11 1 < cumAt chM2 10 11 0 :=
  ⟨nonSingular_chM2, cum_decreasing_chM2⟩

/-- C9, amended.  The cumulative-distance sequence is monotonically
non-decreasing exactly on the profiles whose incremental distances
`dx_i` are all non-negative (energy increment and denominator of the
same sign); profiles with negative `dx_i` (such as an M2-type march)
yield a decreasing sequence instead. -/
theorem cum_monotone_of_dx_nonneg (c : Channel) (ya yb : ℝ)
    (h : dxNonneg c ya yb) : cumMono c ya yb := by
  intro i hi
  have hd := h (i + 1) (by omega) (by omega)
  simp only [cumAt]
  linarith

/-- C9 witness: on `chM1` every incremental distance is non-negative
and the cumulative sequence is therefore non-decreasing. -/
theorem cum_monotone_of_dx_nonneg_witness : dxNonneg chM1 1 2 ∧ cumMono chM1 1 2 :=
  ⟨dxNonneg_chM1, cum_monotone_of_dx_nonneg chM1 1 2 dxNonneg_chM1⟩

/-- For a valid section the area is positive at positive depth. -/
theorem area_pos (c : Channel) (hb : 0 < c.b) (hzl : 0 ≤ c.zleft) (hzr : 0 ≤ c.zright)
    (y : ℝ) (hy : 0 < y) : 0 < c.area y := by
  rw [area_eq]
  have hzz : 0 ≤ c.zleft + c.zright := add_nonneg hzl hzr
  nlinarith [mul_pos hb hy, mul_nonneg (mul_nonneg hzz hy.le) hy.le]

/-- The Manning residual handed to `fsolve` by `norm_depth` is strictly
increasing in the depth for every valid section with positive slope:
the normal-depth equation is well posed. -/
theorem normResidual_strictMono (c : Channel) (hb : 0 < c.b) (hzl : 0 ≤ c.zleft)
    (hzr : 0 ≤ c.zright) (hn : 0 < c.n) (hs : 0 < c.slope)
    (y z : ℝ) (hy : 0 < y) (hyz : y < z) :
    normResidual c y < normResidual c z := by
  have hA := area_strictMono c hb hzl hzr y z hy hyz
  have hR := hyd_rad_strictMono c hb hzl hzr y z hy hyz
  have hApos := area_pos c hb hzl hzr y hy
  have hRpos : 0 < c.hyd_rad y := div_pos hApos (wet_perim_pos c hb y)
  have hsq : 0 < Real.sqrt c.slope := Real.sqrt_pos.2 hs
  have hconst : 0 < 1.49 / c.n * Real.sqrt c.slope := by positivity
  have hRp : c.hyd_rad y ^ ((2 : ℝ) / 3) < c.hyd_rad z ^ ((2 : ℝ) / 3) :=
    Real.rpow_lt_rpow hRpos.le hR (by norm_num)
  have hRp0 : 0 < c.hyd_rad y ^ ((2 : ℝ) / 3) := Real.rpow_pos_of_pos hRpos _
  have hprod : c.area y * c.hyd_rad y ^ ((2 : ℝ) / 3) <
      c.area z * c.hyd_rad z ^ ((2 : ℝ) / 3) :=
    mul_lt_mul' hA.le hRp hRp0.le (lt_trans hApos hA)
  have hall := mul_lt_mul_of_pos_left hprod hconst
  simp only [normResidual]
  nlinarith [hall]

/-- The normal-depth equation has at most one positive root. -/
theorem norm_root_unique (c : Channel) (hb : 0 < c.b) (hzl : 0 ≤ c.zleft)
    (hzr : 0 ≤ c.zright) (hn : 0 < c.n) (hs : 0 < c.slope)
    (y z : ℝ) (hy : 0 < y) (hz : 0 < z)
    (hry : normResidual c y = 0) (hrz : normResidual c z = 0) : y = z := by
  rcases lt_trichotomy y z with h | h | h
  · have hlt := normResidual_strictMono c hb hzl hzr hn hs y z hy h
    rw [hry, hrz] at hlt
    exact absurd hlt (lt_irrefl 0)
  · exact h
  · have hlt := normResidual_strictMono c hb hzl hzr hn hs z y hz h
    rw [hry, hrz] at hlt
    exact absurd hlt (lt_irrefl 0)

/-- The critical-flow residual handed to `fsolve` by `crit_depth` is
strictly increasing in the depth for every valid section: the
critical-depth equation is well posed. -/
theorem critResidual_strictMono (c : Channel) (hb : 0 < c.b) (hzl : 0 ≤ c.zleft)
    (hzr : 0 ≤ c.zright) (y z : ℝ) (hy : 0 < y) (hyz : y < z) :
    critResidual c y < critResidual c z := by
  have hzz : 0 ≤ c.zleft + c.zright := add_nonneg hzl hzr
  have hy0 : (0 : ℝ) ≤ y := hy.le
  have hz0 : (0 : ℝ) ≤ z := by linarith
  have hTy : 0 < c.top y := by simp only [Channel.top]; nlinarith
  have hTz : 0 < c.top z := by simp only [Channel.top]; nlinarith
  have hAy := area_pos c hb hzl hzr y hy
  have hAz := area_pos c hb hzl hzr z (lt_trans hy hyz)
  have hA : c.area y < c.area z := area_strictMono c hb hzl hzr y z hy hyz
  have hcross : c.area y * c.top z < c.area z * c.top y := by
    rw [area_eq, area_eq]
    simp only [Channel.top]
    nlinarith [mul_pos (mul_pos hb hb) (sub_pos.2 hyz),
      mul_nonneg (mul_nonneg hzz hb.le)
        (by nlinarith : (0 : ℝ) ≤ z ^ 2 - y ^ 2),
      mul_nonneg (mul_nonneg (mul_nonneg hzz hzz)
        (mul_pos hy (lt_trans hy hyz)).le) (sub_pos.2 hyz).le]
  have hA2 : c.area y ^ 2 < c.area z ^ 2 := by nlinarith [hAy, hA]
  have key : c.area y ^ 3 / c.top y < c.area z ^ 3 / c.top z := by
    rw [div_lt_div_iff₀ hTy hTz]
    nlinarith [mul_lt_mul'' hA2 hcross (by positivity) (by positivity)]
  simp only [critResidual]
  linarith [key]

/-- The critical-depth equation has at most one positive root. -/
theorem crit_root_unique (c : Channel) (hb : 0 < c.b) (hzl : 0 ≤ c.zleft)
    (hzr : 0 ≤ c.zright) (y z : ℝ) (hy : 0 < y) (hz : 0 < z)
    (hry : critResidual c y = 0) (hrz : critResidual c z = 0) : y = z := by
  rcases lt_trichotomy y z with h | h | h
  · have hlt := critResidual_strictMono c hb hzl hzr y z hy h
    rw [hry, hrz] at hlt
    exact absurd hlt (lt_irrefl 0)
  · exact h
  · have hlt := critResidual_strictMono c hb hzl hzr z y hz h
    rw [hry, hrz] at hlt
    exact absurd hlt (lt_irrefl 0)
